import Mathlib

/-!
Verification of the holding cost-basis recalculation, portfolio aggregation
and transaction recording logic of the Financial_Tracker_v2 repository.

The embedding follows `src/models/stock.py` (classes `Holding`,
`StockTransaction`, enum `StockTransactionType`) and
`src/services/stock_service.py` (`StockService.create_stock_transaction`,
`_update_holding_from_transaction`, `delete_stock_transaction`,
`_reverse_holding_from_transaction`, `get_portfolio_summary`).

Modelling conventions:
- Python `Decimal` values are modelled as exact rationals `ℚ`.
- The database session is modelled as an explicit `DBState`: lists of account
  ids, stock ids, holdings and stock transactions, plus a fresh-id counter for
  transactions.  A SQLAlchemy `query(...).first()` is `List.find?`, in-place
  mutation of the row found is `modifyFirst`, `session.add` appends to the
  list, `session.delete` removes the row.
- Dates and free-text notes are carried by the Python objects but read by none
  of the logic the claims concern, so they are omitted from the structures.
-/

namespace FinancialTracker

/-- Enum `StockTransactionType` of `src/models/stock.py`. -/
inductive StockTransactionType where
  | buy
  | sell
  | dividend
  | split
  | merger
  deriving DecidableEq, Repr

/-- Row of table `stock_transactions` (`class StockTransaction`), with the
surrogate primary key `id`. -/
structure StockTransaction where
  id : Nat
  account_id : Nat
  stock_id : Nat
  transaction_type : StockTransactionType
  shares : ℚ
  price_per_share : ℚ
  fees : ℚ
  total_amount : ℚ
  deriving DecidableEq, Repr

/-- Constructor `StockTransaction.__init__`: stores the fields and derives
`total_amount` as `shares*price + fees` for BUY/SELL and `shares*price`
otherwise. -/
def mkStockTransaction (id account_id stock_id : Nat) (tt : StockTransactionType)
    (shares price_per_share fees : ℚ) : StockTransaction :=
  { id := id
    account_id := account_id
    stock_id := stock_id
    transaction_type := tt
    shares := shares
    price_per_share := price_per_share
    fees := fees
    total_amount :=
      if tt = .buy ∨ tt = .sell then shares * price_per_share + fees
      else shares * price_per_share }

/-- Row of table `holdings` (`class Holding`). -/
structure Holding where
  account_id : Nat
  stock_id : Nat
  shares : ℚ
  average_cost : ℚ
  deriving DecidableEq, Repr

/-- Method `Holding.update_shares` of `src/models/stock.py`: on a buy
(`shares_change > 0`) it accumulates total cost, adds the shares and, when the
resulting share count is positive, recomputes the average cost; on a sell it
adds the (negative) change and clamps a negative result to `0`, leaving
`average_cost` untouched. -/
def Holding.update_shares (h : Holding) (shares_change new_cost : ℚ) : Holding :=
  if 0 < shares_change then
    let total_cost := h.shares * h.average_cost + shares_change * new_cost
    let shares' := h.shares + shares_change
    if 0 < shares' then
      { h with shares := shares', average_cost := total_cost / shares' }
    else
      { h with shares := shares' }
  else
    let shares' := h.shares + shares_change
    if shares' < 0 then
      { h with shares := 0 }
    else
      { h with shares := shares' }

/-- Property `Holding.total_cost`: `shares * average_cost`. -/
def Holding.total_cost (h : Holding) : ℚ :=
  h.shares * h.average_cost

/-- Property `Holding.current_value`: `shares * stock.last_price`, or `0` when
the stock has no known price. -/
def Holding.current_value (h : Holding) (last_price : Option ℚ) : ℚ :=
  match last_price with
  | none => 0
  | some p => h.shares * p

/-- Property `Holding.gain_loss`: `current_value - total_cost`. -/
def Holding.gain_loss (h : Holding) (last_price : Option ℚ) : ℚ :=
  h.current_value last_price - h.total_cost

/-- Property `Holding.gain_loss_percentage`: `0` when `total_cost == 0`, else
`gain_loss / total_cost * 100`. -/
def Holding.gain_loss_percentage (h : Holding) (last_price : Option ℚ) : ℚ :=
  if h.total_cost = 0 then 0
  else h.gain_loss last_price / h.total_cost * 100

/-- The filter used by `_update_holding_from_transaction` and
`_reverse_holding_from_transaction` to locate the holding of an
(account, stock) pair. -/
def pairMatch (account_id stock_id : Nat) (h : Holding) : Bool :=
  h.account_id == account_id && h.stock_id == stock_id

/-- `session.query(Holding).filter(account_id, stock_id).first()`. -/
def findHolding (hs : List Holding) (account_id stock_id : Nat) : Option Holding :=
  hs.find? (pairMatch account_id stock_id)

/-- In-place mutation of the first row satisfying `p`: `f` returns the row's
new value, or `none` when the row is deleted from the session. -/
def modifyFirst (p : Holding → Bool) (f : Holding → Option Holding) :
    List Holding → List Holding
  | [] => []
  | h :: t =>
    if p h then
      match f h with
      | none => t
      | some h' => h' :: t
    else
      h :: modifyFirst p f t

/-- The database state the stock service operates on: account ids, stock ids,
holdings, stock transactions, and the next fresh transaction id. -/
structure DBState where
  accounts : List Nat
  stocks : List Nat
  holdings : List Holding
  transactions : List StockTransaction
  nextId : Nat
  deriving DecidableEq, Repr

/-- `StockService._update_holding_from_transaction`: a BUY updates the
existing holding via `update_shares` or, absent one, adds a new holding with
the transaction's shares and price; a SELL with an existing holding updates it
with the negated share count and deletes it when the remaining shares are
`≤ 0`; every other case leaves the holdings untouched. -/
def updateHoldingFromTransaction (hs : List Holding) (t : StockTransaction) :
    List Holding :=
  match findHolding hs t.account_id t.stock_id with
  | some _ =>
    if t.transaction_type = .buy then
      modifyFirst (pairMatch t.account_id t.stock_id)
        (fun h => some (h.update_shares t.shares t.price_per_share)) hs
    else if t.transaction_type = .sell then
      modifyFirst (pairMatch t.account_id t.stock_id)
        (fun h =>
          let h' := h.update_shares (-t.shares) t.price_per_share
          if h'.shares ≤ 0 then none else some h') hs
    else hs
  | none =>
    if t.transaction_type = .buy then
      hs ++ [{ account_id := t.account_id
               stock_id := t.stock_id
               shares := t.shares
               average_cost := t.price_per_share }]
    else hs

/-- `StockService.create_stock_transaction`: builds the transaction record,
adds it to the session, and, when `update_holding` is set and the type is BUY
or SELL, propagates it to the holdings.  The service performs no existence
check on `account_id` or `stock_id`: the `accounts` and `stocks` tables are
never queried. -/
def create_stock_transaction (s : DBState) (account_id stock_id : Nat)
    (tt : StockTransactionType) (shares price_per_share fees : ℚ)
    (update_holding : Bool) : StockTransaction × DBState :=
  let t := mkStockTransaction s.nextId account_id stock_id tt shares
    price_per_share fees
  let holdings' :=
    if update_holding = true ∧ (tt = .buy ∨ tt = .sell) then
      updateHoldingFromTransaction s.holdings t
    else s.holdings
  (t, { s with
          holdings := holdings'
          transactions := s.transactions ++ [t]
          nextId := s.nextId + 1 })

/-- `StockService._reverse_holding_from_transaction`: with no holding for the
pair it returns immediately; reversing a BUY removes the transaction's shares
and deletes the holding when `≤ 0` remain; reversing a SELL adds the shares
back via `update_shares`. -/
def reverseHoldingFromTransaction (hs : List Holding) (t : StockTransaction) :
    List Holding :=
  match findHolding hs t.account_id t.stock_id with
  | none => hs
  | some _ =>
    if t.transaction_type = .buy then
      modifyFirst (pairMatch t.account_id t.stock_id)
        (fun h =>
          let h' := h.update_shares (-t.shares) t.price_per_share
          if h'.shares ≤ 0 then none else some h') hs
    else if t.transaction_type = .sell then
      modifyFirst (pairMatch t.account_id t.stock_id)
        (fun h => some (h.update_shares t.shares t.price_per_share)) hs
    else hs

/-- `StockService.delete_stock_transaction`: returns `false` when no
transaction carries the id; otherwise reverses the holding effect when
`update_holding` is set and the type is BUY or SELL, then deletes the
transaction row. -/
def delete_stock_transaction (s : DBState) (transaction_id : Nat)
    (update_holding : Bool) : Bool × DBState :=
  match s.transactions.find? (fun t => t.id == transaction_id) with
  | none => (false, s)
  | some t =>
    let holdings' :=
      if update_holding = true ∧
          (t.transaction_type = .buy ∨ t.transaction_type = .sell) then
        reverseHoldingFromTransaction s.holdings t
      else s.holdings
    (true, { s with
               holdings := holdings'
               transactions :=
                 s.transactions.eraseP (fun x => x.id == transaction_id) })

/-- One entry of the `holdings` list built by `get_portfolio_summary`. -/
structure HoldingRow where
  shares : ℚ
  average_cost : ℚ
  current_value : ℚ
  total_cost : ℚ
  gain_loss : ℚ
  gain_loss_percentage : ℚ
  deriving DecidableEq, Repr

/-- The per-holding record appended inside the loop of
`get_portfolio_summary`, reading the stock's last price. -/
def mkHoldingRow (h : Holding) (last_price : Option ℚ) : HoldingRow :=
  { shares := h.shares
    average_cost := h.average_cost
    current_value := h.current_value last_price
    total_cost := h.total_cost
    gain_loss := h.gain_loss last_price
    gain_loss_percentage := h.gain_loss_percentage last_price }

/-- The dictionary returned by `get_portfolio_summary`. -/
structure PortfolioSummary where
  total_value : ℚ
  total_cost : ℚ
  total_gain_loss : ℚ
  total_gain_loss_percentage : ℚ
  holdings_count : Nat
  rows : List HoldingRow
  deriving DecidableEq, Repr

/-- `StockService.get_portfolio_summary` over a list of holdings, with
`price : stock_id → Option ℚ` giving each stock's `last_price`: accumulates
per-holding value and cost, then derives the aggregate gain/loss and its
percentage (`0` unless `total_cost > 0`). -/
def get_portfolio_summary (hs : List Holding) (price : Nat → Option ℚ) :
    PortfolioSummary :=
  let rows := hs.map fun h => mkHoldingRow h (price h.stock_id)
  let total_value := (rows.map fun r => r.current_value).sum
  let total_cost := (rows.map fun r => r.total_cost).sum
  { total_value := total_value
    total_cost := total_cost
    total_gain_loss := total_value - total_cost
    total_gain_loss_percentage :=
      if 0 < total_cost then (total_value - total_cost) / total_cost * 100
      else 0
    holdings_count := hs.length
    rows := rows }

/-- One buy event `(shares, price)` applied to an optional holding the way
`_update_holding_from_transaction` applies a BUY: absent a holding it creates
one with the event's shares and price, otherwise it goes through
`Holding.update_shares`. -/
def buyStep (account_id stock_id : Nat) (acc : Option Holding) (e : ℚ × ℚ) :
    Option Holding :=
  match acc with
  | none => some { account_id := account_id
                   stock_id := stock_id
                   shares := e.1
                   average_cost := e.2 }
  | some h => some (h.update_shares e.1 e.2)

/-- A sequence of buy events applied to an initially absent holding. -/
def runBuys (account_id stock_id : Nat) (events : List (ℚ × ℚ)) :
    Option Holding :=
  events.foldl (buyStep account_id stock_id) none

/-- Total shares of a list of buy events. -/
def sumShares (events : List (ℚ × ℚ)) : ℚ :=
  (events.map fun e => e.1).sum

/-- Total cost (shares × price summed) of a list of buy events. -/
def sumCost (events : List (ℚ × ℚ)) : ℚ :=
  (events.map fun e => e.1 * e.2).sum

/-- Share count recorded for an (account, stock) pair: `0` when no holding
row exists. -/
def shareCount (hs : List Holding) (account_id stock_id : Nat) : ℚ :=
  match findHolding hs account_id stock_id with
  | none => 0
  | some h => h.shares

/-- The composite key of a holding row. -/
def holdingKey (h : Holding) : Nat × Nat :=
  (h.account_id, h.stock_id)

/-- At most one live holding per (account, stock) pair: the application-layer
ownership rule of the data model. -/
def uniquePair (hs : List Holding) : Prop :=
  hs.Pairwise fun a b => holdingKey a ≠ holdingKey b

/-! ### Basic facts about `Holding.update_shares` -/

/-- On a buy, `update_shares` adds the shares and recomputes the average cost
exactly when the resulting share count is positive. -/
theorem update_shares_pos_def (h : Holding) (d c : ℚ) (hd : 0 < d) :
    h.update_shares d c =
      if 0 < h.shares + d then
        { h with shares := h.shares + d
                 average_cost := (h.shares * h.average_cost + d * c) / (h.shares + d) }
      else { h with shares := h.shares + d } := by
  simp [Holding.update_shares, hd]

/-- On a sell (or zero change), `update_shares` adds the change and clamps a
negative result to zero. -/
theorem update_shares_nonpos_def (h : Holding) (d c : ℚ) (hd : ¬ 0 < d) :
    h.update_shares d c =
      if h.shares + d < 0 then { h with shares := 0 }
      else { h with shares := h.shares + d } := by
  simp [Holding.update_shares, hd]

/-- `update_shares` never changes the account of a holding. -/
theorem update_shares_account_id (h : Holding) (d c : ℚ) :
    (h.update_shares d c).account_id = h.account_id := by
  simp only [Holding.update_shares]
  split <;> split <;> rfl

/-- `update_shares` never changes the stock of a holding. -/
theorem update_shares_stock_id (h : Holding) (d c : ℚ) :
    (h.update_shares d c).stock_id = h.stock_id := by
  simp only [Holding.update_shares]
  split <;> split <;> rfl

/-! ### Facts about `find?` and `modifyFirst` -/

/-- `pairMatch` holds exactly on the rows of the (account, stock) pair. -/
theorem pairMatch_eq_true_iff (a i : Nat) (h : Holding) :
    pairMatch a i h = true ↔ h.account_id = a ∧ h.stock_id = i := by
  simp [pairMatch]

/-- `update_shares` keeps a row on its (account, stock) pair. -/
theorem pairMatch_update_shares (a i : Nat) (h : Holding) (d c : ℚ) :
    pairMatch a i (h.update_shares d c) = pairMatch a i h := by
  simp [pairMatch, update_shares_account_id, update_shares_stock_id]

/-- When no row matches, `modifyFirst` is the identity. -/
theorem modifyFirst_of_find?_none (p : Holding → Bool) (f : Holding → Option Holding)
    (hs : List Holding) (hnone : hs.find? p = none) :
    modifyFirst p f hs = hs := by
  induction hs with
  | nil => rfl
  | cons x xs ih =>
    by_cases hx : p x = true
    · rw [List.find?_cons_of_pos _ hx] at hnone
      exact absurd hnone (by simp)
    · rw [List.find?_cons_of_neg _ hx] at hnone
      simp [modifyFirst, hx, ih hnone]

/-- Mutating the first matching row in place: a later `find?` with the same
filter sees the new value, provided the new value still matches. -/
theorem find?_modifyFirst_update (p : Holding → Bool) (f : Holding → Option Holding)
    (hs : List Holding) (h h' : Holding)
    (hfind : hs.find? p = some h) (hf : f h = some h') (hp : p h' = true) :
    (modifyFirst p f hs).find? p = some h' := by
  induction hs with
  | nil => simp at hfind
  | cons x xs ih =>
    by_cases hx : p x = true
    · rw [List.find?_cons_of_pos _ hx] at hfind
      injection hfind with he
      subst he
      simp [modifyFirst, hx, hf, List.find?_cons_of_pos _ hp]
    · rw [List.find?_cons_of_neg _ hx] at hfind
      simp only [modifyFirst, hx, if_false, Bool.false_eq_true]
      rw [List.find?_cons_of_neg _ hx]
      exact ih hfind

/-- Deleting the only matching row: a later `find?` with the same filter sees
nothing, provided rows matching the filter are unique in the list. -/
theorem find?_modifyFirst_delete (p : Holding → Bool) (f : Holding → Option Holding)
    (hs : List Holding) (h : Holding)
    (hpair : hs.Pairwise fun a b => p a = true → p b = false)
    (hfind : hs.find? p = some h) (hf : f h = none) :
    (modifyFirst p f hs).find? p = none := by
  induction hs with
  | nil => simp at hfind
  | cons x xs ih =>
    rcases List.pairwise_cons.mp hpair with ⟨hhead, htail⟩
    by_cases hx : p x = true
    · rw [List.find?_cons_of_pos _ hx] at hfind
      injection hfind with he
      subst he
      simp only [modifyFirst, hx, if_true, hf]
      exact List.find?_eq_none.mpr fun y hy => by simp [hhead y hy hx]
    · rw [List.find?_cons_of_neg _ hx] at hfind
      simp only [modifyFirst, hx, if_false, Bool.false_eq_true]
      rw [List.find?_cons_of_neg _ hx]
      exact ih htail hfind

/-- Every row of `modifyFirst p f hs` is either an untouched row of `hs` or
the image under `f` of a row of `hs`. -/
theorem forall_modifyFirst {P : Holding → Prop} (p : Holding → Bool)
    (f : Holding → Option Holding) (hs : List Holding)
    (hall : ∀ h ∈ hs, P h)
    (hf : ∀ h h', h ∈ hs → P h → f h = some h' → P h') :
    ∀ x ∈ modifyFirst p f hs, P x := by
  induction hs with
  | nil => simp [modifyFirst]
  | cons y ys ih =>
    intro x hx
    by_cases hy : p y = true
    · simp only [modifyFirst, hy, if_true] at hx
      rcases hfy : f y with _ | y'
      · rw [hfy] at hx
        exact hall x (List.mem_cons_of_mem _ hx)
      · rw [hfy] at hx
        rcases List.mem_cons.mp hx with he | hm
        · subst he
          exact hf y x (List.mem_cons_self _ _) (hall y (List.mem_cons_self _ _)) hfy
        · exact hall x (List.mem_cons_of_mem _ hm)
    · simp only [modifyFirst, hy, if_false, Bool.false_eq_true] at hx
      rcases List.mem_cons.mp hx with he | hm
      · subst he
        exact hall x (List.mem_cons_self _ _)
      · exact ih (fun z hz => hall z (List.mem_cons_of_mem _ hz))
          (fun z z' hz => hf z z' (List.mem_cons_of_mem _ hz)) x hm

/-- The pair-uniqueness invariant specialises to: at most one row matches any
given (account, stock) filter. -/
theorem pairwise_pairMatch_of_uniquePair (hs : List Holding) (hu : uniquePair hs)
    (a i : Nat) :
    hs.Pairwise fun x y => pairMatch a i x = true → pairMatch a i y = false := by
  refine hu.imp ?_
  intro x y hxy hpx
  rcases (pairMatch_eq_true_iff a i x).mp hpx with ⟨hxa, hxi⟩
  rw [Bool.eq_false_iff]
  intro hpy
  rcases (pairMatch_eq_true_iff a i y).mp hpy with ⟨hya, hyi⟩
  exact hxy (by simp [holdingKey, hxa, hxi, hya, hyi])

/-- `find?` skips a prefix containing no match. -/
theorem find?_append_of_none {α : Type} (p : α → Bool) (l₁ l₂ : List α)
    (hnone : l₁.find? p = none) : (l₁ ++ l₂).find? p = l₂.find? p := by
  induction l₁ with
  | nil => rfl
  | cons x xs ih =>
    by_cases hx : p x = true
    · rw [List.find?_cons_of_pos _ hx] at hnone
      exact absurd hnone (by simp)
    · rw [List.find?_cons_of_neg _ hx] at hnone
      rw [List.cons_append, List.find?_cons_of_neg _ hx]
      exact ih hnone

/-! ### Claim theorems -/

/-- The invariant claim C7 states for a recorded transaction: the derived
`total_amount` is `shares * price + fees` for BUY/SELL and `shares * price`
for every other kind. -/
def totalAmountOk (t : StockTransaction) : Prop :=
  (t.transaction_type = .buy ∨ t.transaction_type = .sell →
    t.total_amount = t.shares * t.price_per_share + t.fees) ∧
  (¬ (t.transaction_type = .buy ∨ t.transaction_type = .sell) →
    t.total_amount = t.shares * t.price_per_share)

/-- C7: every transaction recorded by `create_stock_transaction` has
`total_amount = shares × price_per_share + fees` when its kind is Buy or
Sell, and `total_amount = shares × price_per_share` (fees not applied) for
every other kind; transactions already satisfying this keep satisfying it. -/
theorem recorded_total_amount (s : DBState) (a i : Nat)
    (tt : StockTransactionType) (sh pr fees : ℚ) (uh : Bool)
    (hprev : ∀ t ∈ s.transactions, totalAmountOk t) :
    ∀ t ∈ (create_stock_transaction s a i tt sh pr fees uh).2.transactions,
      totalAmountOk t := by
  intro t ht
  simp only [create_stock_transaction, List.mem_append, List.mem_singleton] at ht
  rcases ht with ht | ht
  · exact hprev t ht
  · subst ht
    constructor <;>
      · intro hc
        simp only [mkStockTransaction] at hc ⊢
        first
        | rw [if_pos hc]
        | rw [if_neg hc]

/-- Witness for C7 at a concrete buy of 10 shares at 140 with fee 5. -/
theorem recorded_total_amount_witness :
    totalAmountOk (mkStockTransaction 0 1 2 .buy 10 140 5) := by
  have h := recorded_total_amount ⟨[1], [2], [], [], 0⟩ 1 2 .buy 10 140 5 true
    (by simp)
  exact h (mkStockTransaction 0 1 2 .buy 10 140 5)
    (by simp [create_stock_transaction])

/-- C3: a sell (`shares_change < 0`) through `Holding.update_shares` leaves
`average_cost` unchanged and decreases `shares` by exactly the sold amount,
clamping at zero when the result would be negative. -/
theorem sell_shares_and_cost (h : Holding) (d c : ℚ) (hd : d < 0) :
    (h.update_shares d c).average_cost = h.average_cost ∧
    (h.update_shares d c).shares = max (h.shares + d) 0 := by
  rw [update_shares_nonpos_def h d c (not_lt.mpr hd.le)]
  rcases lt_or_le (h.shares + d) 0 with hlt | hle
  · simp [hlt, max_eq_right hlt.le]
  · simp [not_lt.mpr hle, max_eq_left hle]

/-- Witness for C3: selling 3 of 15 shares held at average cost 440/3 keeps
the average cost and leaves 12 shares. -/
theorem sell_shares_and_cost_witness :
    ((⟨1, 1, 15, 440/3⟩ : Holding).update_shares (-3) 155).average_cost = 440/3 ∧
    ((⟨1, 1, 15, 440/3⟩ : Holding).update_shares (-3) 155).shares = max ((15:ℚ) + -3) 0 :=
  sell_shares_and_cost ⟨1, 1, 15, 440/3⟩ (-3) 155 (by norm_num)

/-- C1: a Buy applied by `_update_holding_from_transaction`: with no holding
for the (account, stock) pair a holding is created with the transaction's
shares and price as average cost; with an existing holding the shares grow by
the delta and the average cost becomes the cost-weighted mean, except that it
is left unmodified when the resulting share count is `≤ 0`. -/
theorem buy_updates_holding (hs : List Holding) (t : StockTransaction)
    (hbuy : t.transaction_type = .buy) (hpos : 0 < t.shares) :
    (findHolding hs t.account_id t.stock_id = none →
      findHolding (updateHoldingFromTransaction hs t) t.account_id t.stock_id =
        some { account_id := t.account_id, stock_id := t.stock_id,
               shares := t.shares, average_cost := t.price_per_share }) ∧
    (∀ h, findHolding hs t.account_id t.stock_id = some h →
      ∃ h',
        findHolding (updateHoldingFromTransaction hs t) t.account_id t.stock_id =
          some h' ∧
        h'.shares = h.shares + t.shares ∧
        (0 < h.shares + t.shares →
          h'.average_cost =
            (h.shares * h.average_cost + t.shares * t.price_per_share) /
              (h.shares + t.shares)) ∧
        (h.shares + t.shares ≤ 0 → h'.average_cost = h.average_cost)) := by
  constructor
  · intro hnone
    have hrw : updateHoldingFromTransaction hs t =
        hs ++ [{ account_id := t.account_id, stock_id := t.stock_id,
                 shares := t.shares, average_cost := t.price_per_share }] := by
      simp only [updateHoldingFromTransaction, hnone, hbuy, if_true]
    rw [hrw]
    unfold findHolding at hnone ⊢
    rw [find?_append_of_none _ _ _ hnone]
    rw [List.find?_cons_of_pos _ (by simp [pairMatch])]
  · intro h hfind
    have hrw : updateHoldingFromTransaction hs t =
        modifyFirst (pairMatch t.account_id t.stock_id)
          (fun x => some (x.update_shares t.shares t.price_per_share)) hs := by
      simp only [updateHoldingFromTransaction, hfind, hbuy, if_true]
    refine ⟨h.update_shares t.shares t.price_per_share, ?_, ?_, ?_, ?_⟩
    · rw [hrw]
      unfold findHolding at hfind ⊢
      exact find?_modifyFirst_update _ _ hs h _ hfind rfl
        (by rw [pairMatch_update_shares]; exact List.find?_some hfind)
    · rw [update_shares_pos_def h _ _ hpos]
      split <;> rfl
    · intro hsum
      rw [update_shares_pos_def h _ _ hpos, if_pos hsum]
    · intro hsum
      rw [update_shares_pos_def h _ _ hpos, if_neg (not_lt.mpr hsum)]

/-- Witness for C1: a first buy of 10 shares at 140 creates the holding
(10, 140). -/
theorem buy_updates_holding_witness :
    findHolding
      (updateHoldingFromTransaction [] (mkStockTransaction 0 1 2 .buy 10 140 0))
      1 2 = some { account_id := 1, stock_id := 2, shares := 10, average_cost := 140 } :=
  (buy_updates_holding [] (mkStockTransaction 0 1 2 .buy 10 140 0) rfl
    (by norm_num [mkStockTransaction])).1 rfl

/-- `sumShares` on a cons. -/
theorem sumShares_cons (e : ℚ × ℚ) (es : List (ℚ × ℚ)) :
    sumShares (e :: es) = e.1 + sumShares es := by
  simp [sumShares]

/-- `sumCost` on a cons. -/
theorem sumCost_cons (e : ℚ × ℚ) (es : List (ℚ × ℚ)) :
    sumCost (e :: es) = e.1 * e.2 + sumCost es := by
  simp [sumCost]

/-- Auxiliary loop invariant for C2: folding positive buy events over a
holding with positive shares `S` and average cost `W / S` accumulates the
sums. -/
theorem runBuys_loop (a i : Nat) (events : List (ℚ × ℚ))
    (hpos : ∀ e ∈ events, 0 < e.1) :
    ∀ S W : ℚ, 0 < S →
      events.foldl (buyStep a i)
        (some { account_id := a, stock_id := i, shares := S, average_cost := W / S }) =
      some { account_id := a, stock_id := i, shares := S + sumShares events,
             average_cost := (W + sumCost events) / (S + sumShares events) } := by
  induction events with
  | nil =>
    intro S W hS
    simp [sumShares, sumCost]
  | cons e es ih =>
    intro S W hS
    have he : 0 < e.1 := hpos e (List.mem_cons_self _ _)
    have hS' : 0 < S + e.1 := by linarith
    rw [List.foldl_cons]
    have hstep :
        buyStep a i
          (some { account_id := a, stock_id := i, shares := S,
                  average_cost := W / S }) e =
          some { account_id := a, stock_id := i, shares := S + e.1,
                 average_cost := (W + e.1 * e.2) / (S + e.1) } := by
      simp only [buyStep]
      rw [update_shares_pos_def _ _ _ he]
      have hcancel : S * (W / S) = W := by
        field_simp
      simp only [if_pos hS', hcancel]
    rw [hstep]
    have hrec := ih (fun x hx => hpos x (List.mem_cons_of_mem _ hx)) (S + e.1)
      (W + e.1 * e.2) hS'
    rw [hrec, sumShares_cons, sumCost_cons]
    congr 1
    rw [Holding.mk.injEq]
    refine ⟨rfl, rfl, by ring, by rw [add_assoc, add_assoc]⟩

/-- Closed form for C2: a nonempty sequence of positive buy events applied to
an empty position yields total shares `Σ sᵢ` and average cost
`Σ sᵢ pᵢ / Σ sᵢ`. -/
theorem runBuys_closed (a i : Nat) (events : List (ℚ × ℚ))
    (hne : events ≠ []) (hpos : ∀ e ∈ events, 0 < e.1) :
    runBuys a i events =
      some { account_id := a, stock_id := i, shares := sumShares events,
             average_cost := sumCost events / sumShares events } := by
  match events with
  | [] => exact absurd rfl hne
  | e :: es =>
    have he : 0 < e.1 := hpos e (List.mem_cons_self _ _)
    unfold runBuys
    rw [List.foldl_cons]
    have hfirst :
        buyStep a i none e =
          some { account_id := a, stock_id := i, shares := e.1,
                 average_cost := (e.1 * e.2) / e.1 } := by
      simp only [buyStep]
      congr 1
      rw [Holding.mk.injEq]
      refine ⟨rfl, rfl, rfl, ?_⟩
      field_simp
    rw [hfirst]
    rw [runBuys_loop a i es (fun x hx => hpos x (List.mem_cons_of_mem _ hx))
      e.1 (e.1 * e.2) he]
    rw [sumShares_cons, sumCost_cons]

/-- C2: for every nonempty sequence of positive Buy events applied from an
empty position, the resulting average cost is the shares-weighted mean of the
buy prices, and the result is invariant under permutation of the events. -/
theorem buys_weighted_average (a i : Nat) (events : List (ℚ × ℚ))
    (hne : events ≠ []) (hpos : ∀ e ∈ events, 0 < e.1) :
    runBuys a i events =
      some { account_id := a, stock_id := i, shares := sumShares events,
             average_cost := sumCost events / sumShares events } ∧
    ∀ events' : List (ℚ × ℚ), events.Perm events' →
      runBuys a i events' = runBuys a i events := by
  refine ⟨runBuys_closed a i events hne hpos, ?_⟩
  intro events' hperm
  have hne' : events' ≠ [] := fun h => hne (by
    subst h
    exact hperm.eq_nil)
  have hpos' : ∀ e ∈ events', 0 < e.1 := fun e he =>
    hpos e (hperm.mem_iff.mpr he)
  rw [runBuys_closed a i events hne hpos, runBuys_closed a i events' hne' hpos']
  have hsh : sumShares events' = sumShares events := by
    unfold sumShares
    exact ((hperm.map fun e => e.1).sum_eq).symm
  have hco : sumCost events' = sumCost events := by
    unfold sumCost
    exact ((hperm.map fun e => e.1 * e.2).sum_eq).symm
  rw [hsh, hco]

/-- Witness for C2: Buy 10 @ 140 then Buy 5 @ 160 gives 15 shares at average
cost 440/3 = 146.66..., in either order. -/
theorem buys_weighted_average_witness :
    runBuys 1 2 [(10, 140), (5, 160)] =
      some { account_id := 1, stock_id := 2, shares := 15, average_cost := 440/3 } ∧
    runBuys 1 2 [(5, 160), (10, 140)] = runBuys 1 2 [(10, 140), (5, 160)] := by
  have h := buys_weighted_average 1 2 [(10, 140), (5, 160)] (by simp)
    (by norm_num)
  constructor
  · rw [h.1]
    norm_num [sumShares, sumCost]
  · exact h.2 [(5, 160), (10, 140)] (List.Perm.swap (5, 160) (10, 140) [])

/-- Every holding row records a positive share count. -/
def allPositive (hs : List Holding) : Prop :=
  ∀ h ∈ hs, 0 < h.shares

/-- On a buy, the share count grows by exactly the delta. -/
theorem update_shares_shares_of_pos (h : Holding) (d c : ℚ) (hd : 0 < d) :
    (h.update_shares d c).shares = h.shares + d := by
  rw [update_shares_pos_def h d c hd]
  split <;> rfl

/-- Share-count positivity is preserved by `_update_holding_from_transaction`
when the transaction's share count is positive. -/
theorem allPositive_update (hs : List Holding) (t : StockTransaction)
    (hinv : allPositive hs) (ht : 0 < t.shares) :
    allPositive (updateHoldingFromTransaction hs t) := by
  cases hfind : findHolding hs t.account_id t.stock_id with
  | none =>
    by_cases hb : t.transaction_type = .buy
    · have hrw : updateHoldingFromTransaction hs t =
          hs ++ [{ account_id := t.account_id, stock_id := t.stock_id,
                   shares := t.shares, average_cost := t.price_per_share }] := by
        simp only [updateHoldingFromTransaction, hfind, hb, if_true]
      rw [hrw]
      intro h hh
      rcases List.mem_append.mp hh with hh | hh
      · exact hinv h hh
      · rw [List.mem_singleton] at hh
        subst hh
        exact ht
    · have hrw : updateHoldingFromTransaction hs t = hs := by
        simp only [updateHoldingFromTransaction, hfind]
        rw [if_neg hb]
      rw [hrw]
      exact hinv
  | some h0 =>
    by_cases hb : t.transaction_type = .buy
    · have hrw : updateHoldingFromTransaction hs t =
          modifyFirst (pairMatch t.account_id t.stock_id)
            (fun x => some (x.update_shares t.shares t.price_per_share)) hs := by
        simp only [updateHoldingFromTransaction, hfind, hb, if_true]
      rw [hrw]
      refine forall_modifyFirst _ _ _ hinv ?_
      intro x x' hx hpx hfx
      injection hfx with he
      subst he
      rw [update_shares_shares_of_pos _ _ _ ht]
      linarith
    · by_cases hsell : t.transaction_type = .sell
      · have hrw : updateHoldingFromTransaction hs t =
            modifyFirst (pairMatch t.account_id t.stock_id)
              (fun x =>
                let x' := x.update_shares (-t.shares) t.price_per_share
                if x'.shares ≤ 0 then none else some x') hs := by
          simp only [updateHoldingFromTransaction, hfind]
          rw [if_neg hb, if_pos hsell]
        rw [hrw]
        refine forall_modifyFirst _ _ _ hinv ?_
        intro x x' hx hpx hfx
        dsimp only at hfx
        split at hfx
        · exact Option.noConfusion hfx
        · next hguard =>
          injection hfx with he
          subst he
          exact lt_of_not_le hguard
      · have hrw : updateHoldingFromTransaction hs t = hs := by
          simp only [updateHoldingFromTransaction, hfind]
          rw [if_neg hb, if_neg hsell]
        rw [hrw]
        exact hinv

/-- Share-count positivity is preserved by
`_reverse_holding_from_transaction` when the transaction's share count is
positive. -/
theorem allPositive_reverse (hs : List Holding) (t : StockTransaction)
    (hinv : allPositive hs) (ht : 0 < t.shares) :
    allPositive (reverseHoldingFromTransaction hs t) := by
  cases hfind : findHolding hs t.account_id t.stock_id with
  | none =>
    have hrw : reverseHoldingFromTransaction hs t = hs := by
      simp only [reverseHoldingFromTransaction, hfind]
    rw [hrw]
    exact hinv
  | some h0 =>
    by_cases hb : t.transaction_type = .buy
    · have hrw : reverseHoldingFromTransaction hs t =
          modifyFirst (pairMatch t.account_id t.stock_id)
            (fun x =>
              let x' := x.update_shares (-t.shares) t.price_per_share
              if x'.shares ≤ 0 then none else some x') hs := by
        simp only [reverseHoldingFromTransaction, hfind, hb, if_true]
      rw [hrw]
      refine forall_modifyFirst _ _ _ hinv ?_
      intro x x' hx hpx hfx
      dsimp only at hfx
      split at hfx
      · exact Option.noConfusion hfx
      · next hguard =>
        injection hfx with he
        subst he
        exact lt_of_not_le hguard
    · by_cases hsell : t.transaction_type = .sell
      · have hrw : reverseHoldingFromTransaction hs t =
            modifyFirst (pairMatch t.account_id t.stock_id)
              (fun x => some (x.update_shares t.shares t.price_per_share)) hs := by
          simp only [reverseHoldingFromTransaction, hfind]
          rw [if_neg hb, if_pos hsell]
        rw [hrw]
        refine forall_modifyFirst _ _ _ hinv ?_
        intro x x' hx hpx hfx
        injection hfx with he
        subst he
        rw [update_shares_shares_of_pos _ _ _ ht]
        have := hinv x hx
        linarith
      · have hrw : reverseHoldingFromTransaction hs t = hs := by
          simp only [reverseHoldingFromTransaction, hfind]
          rw [if_neg hb, if_neg hsell]
        rw [hrw]
        exact hinv

/-- C4: starting from a state where every holding has positive shares and
every stored transaction a positive share count, recording any transaction
(with holding update) and deleting any transaction (with reversal) leave only
holdings with positive shares — a holding driven to `≤ 0` shares is deleted in
the same operation; in particular a Sell consuming at least the whole position
makes the subsequent lookup of the pair return `none`. -/
theorem holdings_remain_positive (s : DBState) (a i : Nat)
    (tt : StockTransactionType) (sh pr fees : ℚ) (tid : Nat)
    (hinv : allPositive s.holdings) (hsh : 0 < sh)
    (htx : ∀ t ∈ s.transactions, 0 < t.shares) :
    allPositive (create_stock_transaction s a i tt sh pr fees true).2.holdings ∧
    allPositive (delete_stock_transaction s tid true).2.holdings ∧
    (uniquePair s.holdings → tt = .sell →
      ∀ h0, findHolding s.holdings a i = some h0 → h0.shares ≤ sh →
        findHolding (create_stock_transaction s a i tt sh pr fees true).2.holdings
          a i = none) := by
  have hshares : (mkStockTransaction s.nextId a i tt sh pr fees).shares = sh := rfl
  refine ⟨?_, ?_, ?_⟩
  · by_cases hc : tt = .buy ∨ tt = .sell
    · have hrw : (create_stock_transaction s a i tt sh pr fees true).2.holdings =
          updateHoldingFromTransaction s.holdings
            (mkStockTransaction s.nextId a i tt sh pr fees) := by
        simp only [create_stock_transaction]
        rw [if_pos ⟨by simp, hc⟩]
      rw [hrw]
      exact allPositive_update _ _ hinv (by rw [hshares]; exact hsh)
    · have hrw : (create_stock_transaction s a i tt sh pr fees true).2.holdings =
          s.holdings := by
        simp only [create_stock_transaction]
        rw [if_neg fun hcc => hc hcc.2]
      rw [hrw]
      exact hinv
  · cases hfind : s.transactions.find? (fun t => t.id == tid) with
    | none =>
      have hrw : (delete_stock_transaction s tid true).2.holdings = s.holdings := by
        simp only [delete_stock_transaction, hfind]
      rw [hrw]
      exact hinv
    | some t =>
      have htp : 0 < t.shares := htx t (List.mem_of_find?_eq_some hfind)
      by_cases hc : t.transaction_type = .buy ∨ t.transaction_type = .sell
      · have hrw : (delete_stock_transaction s tid true).2.holdings =
            reverseHoldingFromTransaction s.holdings t := by
          simp only [delete_stock_transaction, hfind]
          rw [if_pos ⟨by simp, hc⟩]
        rw [hrw]
        exact allPositive_reverse _ _ hinv htp
      · have hrw : (delete_stock_transaction s tid true).2.holdings = s.holdings := by
          simp only [delete_stock_transaction, hfind]
          rw [if_neg fun hcc => hc hcc.2]
        rw [hrw]
        exact hinv
  · intro hu hsell h0 hfind hle
    have hrw : (create_stock_transaction s a i tt sh pr fees true).2.holdings =
        modifyFirst (pairMatch a i)
          (fun x =>
            let x' := x.update_shares (-sh) pr
            if x'.shares ≤ 0 then none else some x') s.holdings := by
      simp only [create_stock_transaction]
      rw [if_pos ⟨by simp, Or.inr hsell⟩]
      simp only [updateHoldingFromTransaction, mkStockTransaction, hsell, hfind]
      simp
    rw [hrw]
    unfold findHolding at hfind ⊢
    refine find?_modifyFirst_delete _ _ s.holdings h0
      (pairwise_pairMatch_of_uniquePair s.holdings hu a i) hfind ?_
    dsimp only
    rw [if_pos ?_]
    rw [update_shares_nonpos_def h0 (-sh) pr (by linarith)]
    split <;> simp <;> linarith

/-- Witness for C4: buying 5 shares at 10 into a one-holding state and
deleting an absent transaction keep all share counts positive. -/
theorem holdings_remain_positive_witness :
    allPositive (create_stock_transaction
      ⟨[1], [1], [⟨1, 1, 5, 10⟩], [], 0⟩ 1 1 .buy 5 10 0 true).2.holdings ∧
    allPositive (delete_stock_transaction
      ⟨[1], [1], [⟨1, 1, 5, 10⟩], [], 0⟩ 0 true).2.holdings ∧
    (uniquePair [⟨1, 1, 5, 10⟩] → StockTransactionType.buy = .sell →
      ∀ h0, findHolding [⟨1, 1, 5, 10⟩] 1 1 = some h0 → h0.shares ≤ 5 →
        findHolding (create_stock_transaction
          ⟨[1], [1], [⟨1, 1, 5, 10⟩], [], 0⟩ 1 1 .buy 5 10 0 true).2.holdings
          1 1 = none) :=
  holdings_remain_positive ⟨[1], [1], [⟨1, 1, 5, 10⟩], [], 0⟩ 1 1 .buy 5 10 0 0
    (by intro h hh
        rw [List.mem_singleton] at hh
        subst hh
        norm_num)
    (by norm_num)
    (by intro t ht
        exact absurd ht (List.not_mem_nil t))

/-- Sums of differences split, exactly (used for the aggregate gain/loss). -/
theorem sum_map_sub (hs : List Holding) (f g : Holding → ℚ) :
    (hs.map fun h => f h - g h).sum = (hs.map f).sum - (hs.map g).sum := by
  induction hs with
  | nil => simp
  | cons x xs ih =>
    simp only [List.map_cons, List.sum_cons, ih]
    ring

/-- C6: in `get_portfolio_summary`, each holding contributes
`current_value = shares × last_price` (`0` with no price),
`total_cost = shares × average_cost`, `gain_loss = current_value − total_cost`
and a `gain_loss_percentage` that is `0` at zero cost (no division happens)
and `gain_loss / total_cost × 100` otherwise; the aggregate `total_value`,
`total_cost` and `total_gain_loss` are exactly the per-holding sums. -/
theorem portfolio_summary_exact (hs : List Holding) (price : Nat → Option ℚ) :
    (∀ h ∈ hs,
      (mkHoldingRow h (price h.stock_id)).current_value =
        (match price h.stock_id with
         | none => 0
         | some p => h.shares * p) ∧
      (mkHoldingRow h (price h.stock_id)).total_cost =
        h.shares * h.average_cost ∧
      (mkHoldingRow h (price h.stock_id)).gain_loss =
        (mkHoldingRow h (price h.stock_id)).current_value -
          (mkHoldingRow h (price h.stock_id)).total_cost ∧
      ((mkHoldingRow h (price h.stock_id)).total_cost = 0 →
        (mkHoldingRow h (price h.stock_id)).gain_loss_percentage = 0) ∧
      ((mkHoldingRow h (price h.stock_id)).total_cost ≠ 0 →
        (mkHoldingRow h (price h.stock_id)).gain_loss_percentage =
          (mkHoldingRow h (price h.stock_id)).gain_loss /
            (mkHoldingRow h (price h.stock_id)).total_cost * 100)) ∧
    (get_portfolio_summary hs price).rows =
      (hs.map fun h => mkHoldingRow h (price h.stock_id)) ∧
    (get_portfolio_summary hs price).total_value =
      (hs.map fun h => h.current_value (price h.stock_id)).sum ∧
    (get_portfolio_summary hs price).total_cost =
      (hs.map fun h => h.total_cost).sum ∧
    (get_portfolio_summary hs price).total_gain_loss =
      (hs.map fun h => h.gain_loss (price h.stock_id)).sum := by
  refine ⟨?_, rfl, ?_, ?_, ?_⟩
  · intro h hh
    refine ⟨rfl, rfl, rfl, ?_, ?_⟩
    · intro hzero
      simp only [mkHoldingRow, Holding.gain_loss_percentage] at hzero ⊢
      rw [if_pos hzero]
    · intro hnz
      simp only [mkHoldingRow, Holding.gain_loss_percentage] at hnz ⊢
      rw [if_neg hnz]
  · simp only [get_portfolio_summary, List.map_map]
    rfl
  · simp only [get_portfolio_summary, List.map_map]
    rfl
  · simp only [get_portfolio_summary, List.map_map]
    have hgl :
        (hs.map fun h => h.gain_loss (price h.stock_id)).sum =
          (hs.map fun h => h.current_value (price h.stock_id)).sum -
            (hs.map fun h => h.total_cost).sum := by
      rw [← sum_map_sub hs (fun h => h.current_value (price h.stock_id))
        (fun h => h.total_cost)]
      rfl
    rw [hgl]
    rfl

/-- C9: recording a non-Buy/Sell transaction (a Dividend in particular) with
holding update enabled changes no holding, and deleting a stored non-Buy/Sell
transaction with holding update enabled changes no holding. -/
theorem non_trade_never_touches_holdings (s : DBState) (a i : Nat)
    (tt : StockTransactionType) (sh pr fees : ℚ) (tid : Nat)
    (t : StockTransaction)
    (hnb : tt ≠ .buy) (hns : tt ≠ .sell)
    (hfind : s.transactions.find? (fun x => x.id == tid) = some t)
    (htnb : t.transaction_type ≠ .buy) (htns : t.transaction_type ≠ .sell) :
    (create_stock_transaction s a i tt sh pr fees true).2.holdings =
      s.holdings ∧
    (delete_stock_transaction s tid true).2.holdings = s.holdings := by
  constructor
  · simp only [create_stock_transaction]
    rw [if_neg fun hcc => hcc.2.elim hnb hns]
  · simp only [delete_stock_transaction, hfind]
    rw [if_neg fun hcc => hcc.2.elim htnb htns]

/-- Witness for C9 on a one-dividend-transaction state. -/
theorem non_trade_never_touches_holdings_witness :
    (create_stock_transaction
      ⟨[1], [2], [⟨1, 2, 5, 10⟩], [mkStockTransaction 0 1 2 .dividend 5 3 0], 1⟩
      1 2 .dividend 5 3 0 true).2.holdings = [⟨1, 2, 5, 10⟩] ∧
    (delete_stock_transaction
      ⟨[1], [2], [⟨1, 2, 5, 10⟩], [mkStockTransaction 0 1 2 .dividend 5 3 0], 1⟩
      0 true).2.holdings = [⟨1, 2, 5, 10⟩] :=
  non_trade_never_touches_holdings
    ⟨[1], [2], [⟨1, 2, 5, 10⟩], [mkStockTransaction 0 1 2 .dividend 5 3 0], 1⟩
    1 2 .dividend 5 3 0 0 (mkStockTransaction 0 1 2 .dividend 5 3 0)
    (by decide) (by decide) rfl (by decide) (by decide)

/-- C10: recording a Sell with holding update enabled when no holding exists
for the pair performs no holding mutation at all, while the transaction
record is still created (the function is total: no error is raised). -/
theorem sell_without_holding_no_mutation (s : DBState) (a i : Nat)
    (sh pr fees : ℚ)
    (hnone : findHolding s.holdings a i = none) :
    (create_stock_transaction s a i .sell sh pr fees true).2.holdings =
      s.holdings ∧
    (create_stock_transaction s a i .sell sh pr fees true).2.transactions =
      s.transactions ++ [mkStockTransaction s.nextId a i .sell sh pr fees] := by
  refine ⟨?_, rfl⟩
  simp only [create_stock_transaction]
  rw [if_pos (by simp)]
  have haid : (mkStockTransaction s.nextId a i .sell sh pr fees).account_id = a := rfl
  have hsid : (mkStockTransaction s.nextId a i .sell sh pr fees).stock_id = i := rfl
  simp only [updateHoldingFromTransaction, haid, hsid, hnone]
  rfl

/-- Witness for C10: selling from a state with no holding leaves the (empty)
holdings list unchanged and appends the transaction. -/
theorem sell_without_holding_no_mutation_witness :
    (create_stock_transaction ⟨[1], [2], [], [], 0⟩ 1 2 .sell 5 10 0
      true).2.holdings = [] ∧
    (create_stock_transaction ⟨[1], [2], [], [], 0⟩ 1 2 .sell 5 10 0
      true).2.transactions = [] ++ [mkStockTransaction 0 1 2 .sell 5 10 0] :=
  sell_without_holding_no_mutation ⟨[1], [2], [], [], 0⟩ 1 2 5 10 0 rfl

/-- Field of the constructed transaction. -/
@[simp] theorem mkStockTransaction_id (id a i : Nat) (tt : StockTransactionType)
    (sh pr fees : ℚ) : (mkStockTransaction id a i tt sh pr fees).id = id := rfl

/-- Field of the constructed transaction. -/
@[simp] theorem mkStockTransaction_account_id (id a i : Nat)
    (tt : StockTransactionType) (sh pr fees : ℚ) :
    (mkStockTransaction id a i tt sh pr fees).account_id = a := rfl

/-- Field of the constructed transaction. -/
@[simp] theorem mkStockTransaction_stock_id (id a i : Nat)
    (tt : StockTransactionType) (sh pr fees : ℚ) :
    (mkStockTransaction id a i tt sh pr fees).stock_id = i := rfl

/-- Field of the constructed transaction. -/
@[simp] theorem mkStockTransaction_type (id a i : Nat)
    (tt : StockTransactionType) (sh pr fees : ℚ) :
    (mkStockTransaction id a i tt sh pr fees).transaction_type = tt := rfl

/-- Field of the constructed transaction. -/
@[simp] theorem mkStockTransaction_shares (id a i : Nat)
    (tt : StockTransactionType) (sh pr fees : ℚ) :
    (mkStockTransaction id a i tt sh pr fees).shares = sh := rfl

/-- Field of the constructed transaction. -/
@[simp] theorem mkStockTransaction_price (id a i : Nat)
    (tt : StockTransactionType) (sh pr fees : ℚ) :
    (mkStockTransaction id a i tt sh pr fees).price_per_share = pr := rfl

/-- Counterexample to C8 as stated: with an empty store (account 1 and stock 2
do not exist), `create_stock_transaction` does not fail — it creates the
transaction record anyway, so the stored state is changed. -/
theorem create_missing_refs_counterexample :
    (1 ∉ (⟨[], [], [], [], 0⟩ : DBState).accounts) ∧
    (2 ∉ (⟨[], [], [], [], 0⟩ : DBState).stocks) ∧
    (create_stock_transaction ⟨[], [], [], [], 0⟩ 1 2 .buy 5 10 0
      true).2.transactions = [mkStockTransaction 0 1 2 .buy 5 10 0] ∧
    (create_stock_transaction ⟨[], [], [], [], 0⟩ 1 2 .buy 5 10 0
      true).2.transactions ≠ (⟨[], [], [], [], 0⟩ : DBState).transactions :=
  ⟨List.not_mem_nil 1, List.not_mem_nil 2, rfl, by simp [create_stock_transaction]⟩

/-- C8 amended: `create_stock_transaction` performs no existence check on the
referenced account or instrument; even when neither id is present in the
store the operation succeeds, appends the transaction record, and leaves the
account and stock tables untouched. -/
theorem create_ignores_missing_refs (s : DBState) (a i : Nat)
    (tt : StockTransactionType) (sh pr fees : ℚ) (uh : Bool)
    (ha : a ∉ s.accounts) (hi : i ∉ s.stocks) :
    (create_stock_transaction s a i tt sh pr fees uh).2.transactions =
      s.transactions ++ [mkStockTransaction s.nextId a i tt sh pr fees] ∧
    (create_stock_transaction s a i tt sh pr fees uh).2.accounts = s.accounts ∧
    (create_stock_transaction s a i tt sh pr fees uh).2.stocks = s.stocks :=
  ⟨rfl, rfl, rfl⟩

/-- Witness for C8 (amended) on the empty store. -/
theorem create_ignores_missing_refs_witness :
    (create_stock_transaction ⟨[], [], [], [], 0⟩ 1 2 .buy 5 10 0
      true).2.transactions = [] ++ [mkStockTransaction 0 1 2 .buy 5 10 0] ∧
    (create_stock_transaction ⟨[], [], [], [], 0⟩ 1 2 .buy 5 10 0
      true).2.accounts = [] ∧
    (create_stock_transaction ⟨[], [], [], [], 0⟩ 1 2 .buy 5 10 0
      true).2.stocks = [] :=
  create_ignores_missing_refs ⟨[], [], [], [], 0⟩ 1 2 .buy 5 10 0 true
    (List.not_mem_nil 1) (List.not_mem_nil 2)

/-- Counterexample to C5 as stated: a Sell of the whole 5-share position is
recorded (the holding is deleted), then the transaction is deleted with
holding update enabled; the reversal finds no holding and restores nothing,
so the pair's share count ends at 0, not at its pre-record value 5. -/
theorem reverse_after_record_counterexample :
    shareCount
      (delete_stock_transaction
        (create_stock_transaction ⟨[1], [1], [⟨1, 1, 5, 10⟩], [], 0⟩
          1 1 .sell 5 10 0 true).2 0 true).2.holdings 1 1 = 0 ∧
    shareCount (⟨[1], [1], [⟨1, 1, 5, 10⟩], [], 0⟩ : DBState).holdings 1 1 = 5 := by
  constructor
  · norm_num [create_stock_transaction, mkStockTransaction,
      updateHoldingFromTransaction, findHolding, pairMatch, modifyFirst,
      Holding.update_shares, delete_stock_transaction,
      reverseHoldingFromTransaction, shareCount, List.find?, List.eraseP]
  · norm_num [shareCount, findHolding, pairMatch, List.find?]

/-- C5 amended: deleting a just-recorded transaction (both with holding
update, no other trade on the pair in between) restores the pair's share
count exactly, provided the recording left the holding row alive — that is,
for every Buy, and for a Sell that leaves a positive share count (or finds no
holding at all).  When the Sell consumes the whole position the holding row
is deleted at recording time and the reversal, finding no row, restores
nothing (see the counterexample). -/
theorem reverse_after_record_restores_shares (s : DBState) (a i : Nat)
    (tt : StockTransactionType) (sh pr fees : ℚ)
    (hu : uniquePair s.holdings) (hinv : allPositive s.holdings) (hsh : 0 < sh)
    (hfresh : ∀ t ∈ s.transactions, t.id ≠ s.nextId)
    (hcond : tt = .buy ∨
      (tt = .sell ∧
        ∀ h0, findHolding s.holdings a i = some h0 → sh < h0.shares)) :
    shareCount
      (delete_stock_transaction
        (create_stock_transaction s a i tt sh pr fees true).2 s.nextId
        true).2.holdings a i = shareCount s.holdings a i := by
  have hbs : tt = .buy ∨ tt = .sell := hcond.imp id And.left
  have hholdings1 :
      (create_stock_transaction s a i tt sh pr fees true).2.holdings =
        updateHoldingFromTransaction s.holdings
          (mkStockTransaction s.nextId a i tt sh pr fees) := by
    simp only [create_stock_transaction]
    rw [if_pos ⟨by simp, hbs⟩]
  have hfindtx :
      ((create_stock_transaction s a i tt sh pr fees
        true).2.transactions).find? (fun x => x.id == s.nextId) =
        some (mkStockTransaction s.nextId a i tt sh pr fees) := by
    have hpre : (s.transactions).find? (fun x => x.id == s.nextId) = none :=
      List.find?_eq_none.mpr fun x hx => by simpa using hfresh x hx
    have htrans1 :
        (create_stock_transaction s a i tt sh pr fees true).2.transactions =
          s.transactions ++ [mkStockTransaction s.nextId a i tt sh pr fees] := rfl
    rw [htrans1, find?_append_of_none _ _ _ hpre]
    rw [List.find?_cons_of_pos _ (by simp)]
  have hdel :
      (delete_stock_transaction
        (create_stock_transaction s a i tt sh pr fees true).2 s.nextId
        true).2.holdings =
        reverseHoldingFromTransaction
          (updateHoldingFromTransaction s.holdings
            (mkStockTransaction s.nextId a i tt sh pr fees))
          (mkStockTransaction s.nextId a i tt sh pr fees) := by
    simp only [delete_stock_transaction, hfindtx, mkStockTransaction_type]
    rw [if_pos ⟨by simp, hbs⟩, hholdings1]
  rw [hdel]
  rcases hcond with hbuy | ⟨hsell, hgt⟩
  · subst hbuy
    cases hfound : findHolding s.holdings a i with
    | none =>
      have hup : updateHoldingFromTransaction s.holdings
          (mkStockTransaction s.nextId a i .buy sh pr fees) =
          s.holdings ++ [⟨a, i, sh, pr⟩] := by
        simp only [updateHoldingFromTransaction, mkStockTransaction_account_id,
          mkStockTransaction_stock_id, mkStockTransaction_type,
          mkStockTransaction_shares, mkStockTransaction_price, hfound]
        simp
      have hfind1 : findHolding (s.holdings ++ [⟨a, i, sh, pr⟩]) a i =
          some ⟨a, i, sh, pr⟩ := by
        unfold findHolding at hfound ⊢
        rw [find?_append_of_none _ _ _ hfound,
          List.find?_cons_of_pos _ (by simp [pairMatch])]
      have hzero : ((⟨a, i, sh, pr⟩ : Holding).update_shares (-sh) pr).shares ≤ 0 := by
        rw [update_shares_nonpos_def _ _ _ (by linarith)]
        split
        · norm_num
        · simp
      have hrev : reverseHoldingFromTransaction (s.holdings ++ [⟨a, i, sh, pr⟩])
          (mkStockTransaction s.nextId a i .buy sh pr fees) =
          modifyFirst (pairMatch a i)
            (fun x =>
              let x' := x.update_shares (-sh) pr
              if x'.shares ≤ 0 then none else some x')
            (s.holdings ++ [⟨a, i, sh, pr⟩]) := by
        simp only [reverseHoldingFromTransaction, mkStockTransaction_account_id,
          mkStockTransaction_stock_id, mkStockTransaction_type,
          mkStockTransaction_shares, mkStockTransaction_price, hfind1]
        simp
      have hpw : (s.holdings ++ [(⟨a, i, sh, pr⟩ : Holding)]).Pairwise
          (fun x y => pairMatch a i x = true → pairMatch a i y = false) := by
        rw [List.pairwise_append]
        refine ⟨pairwise_pairMatch_of_uniquePair s.holdings hu a i, ?_, ?_⟩
        · simp
        intro x hx y _ hpx
        unfold findHolding at hfound
        exact absurd hpx (List.find?_eq_none.mp hfound x hx)
      have hnone2 : findHolding
          (modifyFirst (pairMatch a i)
            (fun x =>
              let x' := x.update_shares (-sh) pr
              if x'.shares ≤ 0 then none else some x')
            (s.holdings ++ [⟨a, i, sh, pr⟩])) a i = none := by
        unfold findHolding at hfind1 ⊢
        refine find?_modifyFirst_delete _ _ _ ⟨a, i, sh, pr⟩ hpw hfind1 ?_
        dsimp only
        rw [if_pos hzero]
      rw [hup, hrev]
      simp only [shareCount, hnone2, hfound]
    | some h0 =>
      have hp0 : pairMatch a i h0 = true := by
        unfold findHolding at hfound
        exact List.find?_some hfound
      have hup : updateHoldingFromTransaction s.holdings
          (mkStockTransaction s.nextId a i .buy sh pr fees) =
          modifyFirst (pairMatch a i)
            (fun x => some (x.update_shares sh pr)) s.holdings := by
        simp only [updateHoldingFromTransaction, mkStockTransaction_account_id,
          mkStockTransaction_stock_id, mkStockTransaction_type,
          mkStockTransaction_shares, mkStockTransaction_price, hfound]
        simp
      have hfind1 : findHolding
          (modifyFirst (pairMatch a i)
            (fun x => some (x.update_shares sh pr)) s.holdings) a i =
          some (h0.update_shares sh pr) := by
        unfold findHolding at hfound ⊢
        exact find?_modifyFirst_update _ _ _ h0 _ hfound rfl
          (by rw [pairMatch_update_shares]; exact hp0)
      have hshares1 : (h0.update_shares sh pr).shares = h0.shares + sh :=
        update_shares_shares_of_pos h0 sh pr hsh
      have hback : ((h0.update_shares sh pr).update_shares (-sh) pr).shares =
          h0.shares := by
        rw [update_shares_nonpos_def _ _ _ (by linarith), hshares1]
        have h0pos : 0 < h0.shares := by
          apply hinv
          unfold findHolding at hfound
          exact List.mem_of_find?_eq_some hfound
        rw [if_neg (by linarith)]
        show h0.shares + sh + -sh = h0.shares
        ring
      have hrev : reverseHoldingFromTransaction
          (modifyFirst (pairMatch a i)
            (fun x => some (x.update_shares sh pr)) s.holdings)
          (mkStockTransaction s.nextId a i .buy sh pr fees) =
          modifyFirst (pairMatch a i)
            (fun x =>
              let x' := x.update_shares (-sh) pr
              if x'.shares ≤ 0 then none else some x')
            (modifyFirst (pairMatch a i)
              (fun x => some (x.update_shares sh pr)) s.holdings) := by
        simp only [reverseHoldingFromTransaction, mkStockTransaction_account_id,
          mkStockTransaction_stock_id, mkStockTransaction_type,
          mkStockTransaction_shares, mkStockTransaction_price, hfind1]
        simp
      have h0pos : 0 < h0.shares := by
        apply hinv
        unfold findHolding at hfound
        exact List.mem_of_find?_eq_some hfound
      have hfind2 : findHolding
          (modifyFirst (pairMatch a i)
            (fun x =>
              let x' := x.update_shares (-sh) pr
              if x'.shares ≤ 0 then none else some x')
            (modifyFirst (pairMatch a i)
              (fun x => some (x.update_shares sh pr)) s.holdings)) a i =
          some ((h0.update_shares sh pr).update_shares (-sh) pr) := by
        unfold findHolding at hfind1 ⊢
        refine find?_modifyFirst_update _ _ _ (h0.update_shares sh pr) _ hfind1
          ?_ (by rw [pairMatch_update_shares, pairMatch_update_shares]; exact hp0)
        dsimp only
        rw [if_neg (by rw [hback]; exact not_le.mpr h0pos)]
      rw [hup, hrev]
      simp only [shareCount, hfind2, hfound, hback]
  · subst hsell
    cases hfound : findHolding s.holdings a i with
    | none =>
      have hup : updateHoldingFromTransaction s.holdings
          (mkStockTransaction s.nextId a i .sell sh pr fees) = s.holdings := by
        simp only [updateHoldingFromTransaction, mkStockTransaction_account_id,
          mkStockTransaction_stock_id, mkStockTransaction_type,
          mkStockTransaction_shares, mkStockTransaction_price, hfound]
        simp
      have hrev : reverseHoldingFromTransaction s.holdings
          (mkStockTransaction s.nextId a i .sell sh pr fees) = s.holdings := by
        simp only [reverseHoldingFromTransaction, mkStockTransaction_account_id,
          mkStockTransaction_stock_id, mkStockTransaction_type,
          mkStockTransaction_shares, mkStockTransaction_price, hfound]
      rw [hup, hrev]
    | some h0 =>
      have hp0 : pairMatch a i h0 = true := by
        unfold findHolding at hfound
        exact List.find?_some hfound
      have hlt : sh < h0.shares := hgt h0 hfound
      have hdown : (h0.update_shares (-sh) pr).shares = h0.shares - sh := by
        rw [update_shares_nonpos_def _ _ _ (by linarith)]
        rw [if_neg (by linarith)]
        show h0.shares + -sh = h0.shares - sh
        ring
      have hup : updateHoldingFromTransaction s.holdings
          (mkStockTransaction s.nextId a i .sell sh pr fees) =
          modifyFirst (pairMatch a i)
            (fun x =>
              let x' := x.update_shares (-sh) pr
              if x'.shares ≤ 0 then none else some x') s.holdings := by
        simp only [updateHoldingFromTransaction, mkStockTransaction_account_id,
          mkStockTransaction_stock_id, mkStockTransaction_type,
          mkStockTransaction_shares, mkStockTransaction_price, hfound]
        simp
      have hfind1 : findHolding
          (modifyFirst (pairMatch a i)
            (fun x =>
              let x' := x.update_shares (-sh) pr
              if x'.shares ≤ 0 then none else some x') s.holdings) a i =
          some (h0.update_shares (-sh) pr) := by
        unfold findHolding at hfound ⊢
        refine find?_modifyFirst_update _ _ _ h0 _ hfound ?_
          (by rw [pairMatch_update_shares]; exact hp0)
        dsimp only
        rw [if_neg (by rw [hdown]; exact not_le.mpr (by linarith))]
      have hrev : reverseHoldingFromTransaction
          (modifyFirst (pairMatch a i)
            (fun x =>
              let x' := x.update_shares (-sh) pr
              if x'.shares ≤ 0 then none else some x') s.holdings)
          (mkStockTransaction s.nextId a i .sell sh pr fees) =
          modifyFirst (pairMatch a i)
            (fun x => some (x.update_shares sh pr))
            (modifyFirst (pairMatch a i)
              (fun x =>
                let x' := x.update_shares (-sh) pr
                if x'.shares ≤ 0 then none else some x') s.holdings) := by
        simp only [reverseHoldingFromTransaction, mkStockTransaction_account_id,
          mkStockTransaction_stock_id, mkStockTransaction_type,
          mkStockTransaction_shares, mkStockTransaction_price, hfind1]
        simp
      have hfind2 : findHolding
          (modifyFirst (pairMatch a i)
            (fun x => some (x.update_shares sh pr))
            (modifyFirst (pairMatch a i)
              (fun x =>
                let x' := x.update_shares (-sh) pr
                if x'.shares ≤ 0 then none else some x') s.holdings)) a i =
          some ((h0.update_shares (-sh) pr).update_shares sh pr) := by
        unfold findHolding at hfind1 ⊢
        exact find?_modifyFirst_update _ _ _ (h0.update_shares (-sh) pr) _ hfind1
          rfl (by rw [pairMatch_update_shares, pairMatch_update_shares]; exact hp0)
      have hback : ((h0.update_shares (-sh) pr).update_shares sh pr).shares =
          h0.shares := by
        rw [update_shares_shares_of_pos _ _ _ hsh, hdown]
        ring
      rw [hup, hrev]
      simp only [shareCount, hfind2, hfound, hback]

/-- Witness for C5 (amended): buy 5 at 10 into an empty store, then delete
the transaction: the pair's share count returns to 0. -/
theorem reverse_after_record_restores_shares_witness :
    shareCount
      (delete_stock_transaction
        (create_stock_transaction ⟨[1], [1], [], [], 0⟩ 1 1 .buy 5 10 0
          true).2 0 true).2.holdings 1 1 =
      shareCount (⟨[1], [1], [], [], 0⟩ : DBState).holdings 1 1 :=
  reverse_after_record_restores_shares ⟨[1], [1], [], [], 0⟩ 1 1 .buy 5 10 0
    (by simp [uniquePair]) (by intro h hh; exact absurd hh (List.not_mem_nil h))
    (by norm_num) (by intro t ht; exact absurd ht (List.not_mem_nil t))
    (Or.inl rfl)

end FinancialTracker
